import Mathlib

/-
Verification of capture_bore.py: a script that spawns the bore tunnelling
binary, scans its combined output byte by byte for the marker "bore.pub:"
followed by a port number, falls back to a regex over the whole buffer on
timeout, emails the resulting URL, and waits on the child process.

The byte stream actually read by the scan loop within the 15 second budget
is modelled as a list of read events (one byte, an empty read, or a read
error); wall-clock time itself is abstracted away.  All other definitions
are direct translations of the Python source.
-/

namespace CaptureBore

/-- Code points of the marker string bore.pub: that the scanner looks for. -/
def markerCp : List Nat := [98, 111, 114, 101, 46, 112, 117, 98, 58]

/-- Code points of the marker without its final colon (58). -/
def markerHead : List Nat := [98, 111, 114, 101, 46, 112, 117, 98]

/-- Tests whether a code point or byte is an ASCII decimal digit.  In the
scan loop the tested character is decoded from a single byte (a byte at or
above 128 decodes to the empty string under errors ignore), so there the
Python test char.isdigit is exactly this ASCII test. -/
def isAsciiDigit (c : Nat) : Bool := decide (48 ≤ c ∧ c ≤ 57)

/-- The code point ranges of the Unicode general category Nd (decimal
digit), Unicode 14.0 as shipped with CPython 3.11: this is the character
class that the regex escape for digits matches on a str. -/
def ndRanges : List (Nat × Nat) :=
  [(48, 57), (1632, 1641), (1776, 1785), (1984, 1993), (2406, 2415), (2534, 2543),
   (2662, 2671), (2790, 2799), (2918, 2927), (3046, 3055), (3174, 3183), (3302, 3311),
   (3430, 3439), (3558, 3567), (3664, 3673), (3792, 3801), (3872, 3881), (4160, 4169),
   (4240, 4249), (6112, 6121), (6160, 6169), (6470, 6479), (6608, 6617), (6784, 6793),
   (6800, 6809), (6992, 7001), (7088, 7097), (7232, 7241), (7248, 7257), (42528, 42537),
   (43216, 43225), (43264, 43273), (43472, 43481), (43504, 43513), (43600, 43609),
   (44016, 44025), (65296, 65305), (66720, 66729), (68912, 68921), (69734, 69743),
   (69872, 69881), (69942, 69951), (70096, 70105), (70384, 70393), (70736, 70745),
   (70864, 70873), (71248, 71257), (71360, 71369), (71472, 71481), (71904, 71913),
   (72016, 72025), (72784, 72793), (73040, 73049), (73120, 73129), (92768, 92777),
   (92864, 92873), (93008, 93017), (120782, 120831), (123200, 123209), (123632, 123641),
   (125264, 125273), (130032, 130041)]

/-- Tests whether a code point is a Unicode decimal digit (category Nd):
the digit class matched by the fallback regex over the decoded buffer. -/
def isUnicodeDigit (c : Nat) : Bool :=
  ndRanges.any fun r => decide (r.1 ≤ c ∧ c ≤ r.2)

/-- Tests for a UTF-8 continuation byte (0x80 to 0xBF). -/
def isCont (c : Nat) : Bool := decide (128 ≤ c ∧ c ≤ 191)

/-- Valid range of the first continuation byte after lead byte b, following
the UTF-8 validity rules (no overlong forms, no surrogates, max U+10FFFF). -/
def cont1Ok (b c : Nat) : Bool :=
  if b = 224 then decide (160 ≤ c ∧ c ≤ 191)
  else if b = 237 then decide (128 ≤ c ∧ c ≤ 159)
  else if b = 240 then decide (144 ≤ c ∧ c ≤ 191)
  else if b = 244 then decide (128 ≤ c ∧ c ≤ 143)
  else isCont c

/-- Decodes a byte list as UTF-8 the way bytes.decode with errors ignore
does in Python: valid sequences become code points, invalid maximal
subparts are skipped without producing anything, and an incomplete
sequence at the end of the input is dropped. -/
def decodeIgnore : List Nat → List Nat
  | [] => []
  | b :: bs =>
    if b ≤ 127 then b :: decodeIgnore bs
    else if 194 ≤ b ∧ b ≤ 223 then
      match bs with
      | [] => []
      | c1 :: bs1 =>
        if isCont c1 then ((b - 192) * 64 + (c1 - 128)) :: decodeIgnore bs1
        else decodeIgnore (c1 :: bs1)
    else if 224 ≤ b ∧ b ≤ 239 then
      match bs with
      | [] => []
      | c1 :: bs1 =>
        if cont1Ok b c1 then
          match bs1 with
          | [] => []
          | c2 :: bs2 =>
            if isCont c2 then
              ((b - 224) * 4096 + (c1 - 128) * 64 + (c2 - 128)) :: decodeIgnore bs2
            else decodeIgnore (c2 :: bs2)
        else decodeIgnore (c1 :: bs1)
    else if 240 ≤ b ∧ b ≤ 244 then
      match bs with
      | [] => []
      | c1 :: bs1 =>
        if cont1Ok b c1 then
          match bs1 with
          | [] => []
          | c2 :: bs2 =>
            if isCont c2 then
              match bs2 with
              | [] => []
              | c3 :: bs3 =>
                if isCont c3 then
                  ((b - 240) * 262144 + (c1 - 128) * 4096 + (c2 - 128) * 64 + (c3 - 128))
                    :: decodeIgnore bs3
                else decodeIgnore (c3 :: bs3)
            else decodeIgnore (c2 :: bs2)
        else decodeIgnore (c1 :: bs1)
    else decodeIgnore bs

/-- Substring containment test, mirroring the Python expression
marker in decoded: pat occurs contiguously inside l. -/
def containsSeq (pat : List Nat) : List Nat → Bool
  | [] => pat.isPrefixOf []
  | c :: rest => pat.isPrefixOf (c :: rest) || containsSeq pat rest

/-- Mutable state of the scan loop in capture_bore_url: the accumulated raw
byte buffer output, the flag found_bore_pub, and the captured digit
characters port_digits (stored as code points). -/
structure ScanState where
  output : List Nat
  found : Bool
  portDigits : List Nat
deriving DecidableEq

/-- Initial scan state: empty buffer, marker not found, no digits. -/
def initState : ScanState := ⟨[], false, []⟩

/-- One iteration of the scan loop body for a successfully read byte b:
append b to the buffer; if the marker was not yet found, re-decode the whole
buffer and look for bore.pub: in it; otherwise run the digit-capturing
branch, which returns the port digits once a non-digit arrives after at
least four captured digits.  A byte at or above 128 decodes (alone, with
errors ignored) to the empty string, whose isdigit test is false, so in the
capturing branch only the ASCII digit test on the byte matters. -/
def scanStep (s : ScanState) (b : Nat) : ScanState ⊕ List Nat :=
  let out := s.output ++ [b]
  if s.found = false then
    Sum.inl ⟨out, containsSeq markerCp (decodeIgnore out), s.portDigits⟩
  else if isAsciiDigit b then
    Sum.inl ⟨out, true, s.portDigits ++ [b]⟩
  else if s.portDigits ≠ [] ∧ 4 ≤ s.portDigits.length then
    Sum.inr s.portDigits
  else
    Sum.inl ⟨out, true, s.portDigits⟩

/-- Runs the scan loop over a list of bytes, returning the captured port
digits if the fast path returned, together with the state reached. -/
def scanList : ScanState → List Nat → Option (List Nat) × ScanState
  | s, [] => (none, s)
  | s, b :: bs =>
    match scanStep s b with
    | Sum.inr p => (some p, s)
    | Sum.inl s1 => scanList s1 bs

/-- Attempts the fallback pattern at the head of d: the literal bore.pub:
followed greedily by four or five Unicode decimal digits (the digit escape
of a str regex matches all of category Nd), returning the digit group.
This models one anchored attempt of the regex used in the source. -/
def matchPort (d : List Nat) : Option (List Nat) :=
  if markerCp.isPrefixOf d then
    if 4 ≤ ((d.drop 9).takeWhile isUnicodeDigit).length then
      some (((d.drop 9).takeWhile isUnicodeDigit).take 5)
    else none
  else none

/-- Leftmost search of the fallback pattern over the decoded buffer,
modelling re.search with the pattern used in the source: positions are
tried left to right and the first successful attempt wins. -/
def regexFind : List Nat → Option (List Nat)
  | [] => none
  | c :: rest =>
    match matchPort (c :: rest) with
    | some g => some g
    | none => regexFind rest

/-- Builds a string from a list of code points. -/
def cpStr (l : List Nat) : String := String.mk (l.map Char.ofNat)

/-- URL produced by the fast path of capture_bore_url. -/
def fastUrl (p : List Nat) : String := "http://bore.pub:" ++ cpStr p ++ "/opds/all"

/-- URL produced by the regex fallback of capture_bore_url. -/
def fallbackUrl (p : List Nat) : String := "http://bore.pub:" ++ cpStr p ++ "/"

/-- The URL-producing core of capture_bore_url on the bytes actually read
before the timeout: run the byte-by-byte scan; if it returned, build the
fast-path URL; otherwise decode the whole accumulated buffer and run the
fallback regex search, building the fallback URL on a match. -/
def captureBytes (stream : List Nat) : Option String :=
  match scanList initState stream with
  | (some p, _) => some (fastUrl p)
  | (none, s) =>
    match regexFind (decodeIgnore s.output) with
    | some g => some (fallbackUrl g)
    | none => none

/-- One read attempt of the scan loop: a byte was read, the read returned an
empty result, or the read raised and the except branch slept briefly. -/
inductive ReadEvent where
  | chunk (b : Nat)
  | emptyRead
  | readErr
deriving DecidableEq

/-- Scan loop over read events: a byte is processed by scanStep, an empty
read leaves the state untouched, and a read error is swallowed by the bare
except clause (sleep and retry), also leaving the state untouched. -/
def scanEvents : ScanState → List ReadEvent → Option (List Nat) × ScanState
  | s, [] => (none, s)
  | s, ReadEvent.chunk b :: es =>
    match scanStep s b with
    | Sum.inr p => (some p, s)
    | Sum.inl s1 => scanEvents s1 es
  | s, ReadEvent.emptyRead :: es => scanEvents s es
  | s, ReadEvent.readErr :: es => scanEvents s es

/-- The bytes delivered by a list of read events. -/
def eventBytes : List ReadEvent → List Nat
  | [] => []
  | ReadEvent.chunk b :: es => b :: eventBytes es
  | ReadEvent.emptyRead :: es => eventBytes es
  | ReadEvent.readErr :: es => eventBytes es

/-- capture_bore_url at the level of read events, combining the event scan
loop with the regex fallback over the accumulated buffer. -/
def captureFromEvents (es : List ReadEvent) : Option String :=
  match scanEvents initState es with
  | (some p, _) => some (fastUrl p)
  | (none, s) =>
    match regexFind (decodeIgnore s.output) with
    | some g => some (fallbackUrl g)
    | none => none

/-- Operations that capture_bore_url performs on the child process handle:
it spawns the process once, reads from its stdout on each loop iteration,
and never terminates or waits on it; the handle is returned to the caller
in every outcome. -/
inductive ProcOp where
  | spawnOp
  | readOp
  | terminateOp
  | waitOp
deriving DecidableEq

/-- The process operations emitted by capture_bore_url for a given list of
read events: one spawn, then one read attempt per loop iteration. -/
def captureProcOps (es : List ReadEvent) : List ProcOp :=
  ProcOp.spawnOp :: es.map fun _ => ProcOp.readOp

/-- Tests whether a terminate operation occurs in an operation list. -/
def hasTerminateOp : List ProcOp → Bool
  | [] => false
  | ProcOp.terminateOp :: _ => true
  | _ :: rest => hasTerminateOp rest

/-- Tests whether a wait operation occurs in an operation list. -/
def hasWaitOp : List ProcOp → Bool
  | [] => false
  | ProcOp.waitOp :: _ => true
  | _ :: rest => hasWaitOp rest

/-- capture_bore_url pairs its URL result with the child process handle it
spawned; every return statement of the source returns the same handle. -/
def captureWithProcess {α : Type} (proc : α) (stream : List Nat) : Option String × α :=
  (captureBytes stream, proc)

/-- Outcome of each step of the SMTP conversation attempted by send_email:
connecting to the relay, the STARTTLS upgrade, authentication, and the
actual send.  The transport is external, so it is modelled as this record
of which steps would succeed. -/
structure SmtpOutcome where
  connectOk : Bool
  starttlsOk : Bool
  loginOk : Bool
  sendOk : Bool
deriving DecidableEq

/-- The SMTP conversation succeeds when every step succeeds. -/
def sendEmailOk (o : SmtpOutcome) : Bool :=
  o.connectOk && o.starttlsOk && o.loginOk && o.sendOk

/-- Observable actions of the top level block of the script. -/
inductive MainAction where
  | printUrl (u : String)
  | emailSentMsg
  | emailFailedMsg
  | emailOkNote
  | emailWarnNote
  | waitChild
  | terminateChild
  | printStopped
  | runDirect
deriving DecidableEq

/-- send_email: builds the message and runs the SMTP steps inside a
try block; on success it prints a confirmation and returns true; any
failing step is caught by the except clause, which prints a diagnostic and
returns false, so the function never raises to its caller. -/
def send_email (o : SmtpOutcome) : Bool × List MainAction :=
  if sendEmailOk o then (true, [MainAction.emailSentMsg])
  else (false, [MainAction.emailFailedMsg])

/-- The main block: if a URL was captured, print it, attempt the email
(printing a note either way), then wait on the child; a keyboard interrupt
during the wait terminates the child once and the script prints Stopped
and exits.  If no URL was captured, the script re-runs the binary in the
foreground. -/
def mainRun (stream : List Nat) (o : SmtpOutcome) (interrupted : Bool) : List MainAction :=
  match captureBytes stream with
  | some url =>
    MainAction.printUrl url ::
      ((send_email o).2 ++
        (if (send_email o).1 then [MainAction.emailOkNote] else [MainAction.emailWarnNote]) ++
        (MainAction.waitChild ::
          (if interrupted then [MainAction.terminateChild, MainAction.printStopped] else [])))
  | none => [MainAction.runDirect]

/-- Number of termination requests sent to the child in an action list. -/
def countTerminate : List MainAction → Nat
  | [] => 0
  | MainAction.terminateChild :: rest => countTerminate rest + 1
  | _ :: rest => countTerminate rest

/-! Helper lemmas about the scan state machine. -/

theorem markerCp_eq : markerCp = markerHead ++ [58] := rfl

theorem scanStep_not_found (out pd : List Nat) (b : Nat) :
    scanStep ⟨out, false, pd⟩ b =
      Sum.inl ⟨out ++ [b], containsSeq markerCp (decodeIgnore (out ++ [b])), pd⟩ := rfl

theorem scanStep_found_digit (out pd : List Nat) (b : Nat) (hb : isAsciiDigit b = true) :
    scanStep ⟨out, true, pd⟩ b = Sum.inl ⟨out ++ [b], true, pd ++ [b]⟩ := by
  simp [scanStep, hb]

theorem scanStep_found_stop (out pd : List Nat) (b : Nat)
    (hb : isAsciiDigit b = false) (hlen : 4 ≤ pd.length) :
    scanStep ⟨out, true, pd⟩ b = Sum.inr pd := by
  have hne : pd ≠ [] := by
    intro h
    rw [h] at hlen
    simp at hlen
  simp [scanStep, hb, hne, hlen]

theorem scanStep_found_cont (out pd : List Nat) (b : Nat)
    (hb : isAsciiDigit b = false) (hlen : pd.length < 4) :
    scanStep ⟨out, true, pd⟩ b = Sum.inl ⟨out ++ [b], true, pd⟩ := by
  have hcond : ¬(pd ≠ [] ∧ 4 ≤ pd.length) := by
    rintro ⟨-, h⟩
    omega
  simp [scanStep, hb, hcond]

theorem scanList_cons_inl (s : ScanState) (b : Nat) (bs : List Nat) (s1 : ScanState)
    (h : scanStep s b = Sum.inl s1) : scanList s (b :: bs) = scanList s1 bs := by
  rw [scanList, h]

theorem scanList_cons_inr (s : ScanState) (b : Nat) (bs : List Nat) (p : List Nat)
    (h : scanStep s b = Sum.inr p) : scanList s (b :: bs) = (some p, s) := by
  rw [scanList, h]

theorem scanEvents_cons_chunk_inl (s : ScanState) (b : Nat) (es : List ReadEvent)
    (s1 : ScanState) (h : scanStep s b = Sum.inl s1) :
    scanEvents s (ReadEvent.chunk b :: es) = scanEvents s1 es := by
  rw [scanEvents, h]

theorem scanEvents_cons_chunk_inr (s : ScanState) (b : Nat) (es : List ReadEvent)
    (p : List Nat) (h : scanStep s b = Sum.inr p) :
    scanEvents s (ReadEvent.chunk b :: es) = (some p, s) := by
  rw [scanEvents, h]

theorem scanList_append (xs ys : List Nat) : ∀ s : ScanState,
    scanList s (xs ++ ys) =
      match scanList s xs with
      | (some p, s1) => (some p, s1)
      | (none, s1) => scanList s1 ys := by
  induction xs with
  | nil => intro s; rfl
  | cons b bs ih =>
    intro s
    rcases hstep : scanStep s b with s1 | p
    · rw [List.cons_append, scanList_cons_inl s b (bs ++ ys) s1 hstep,
        scanList_cons_inl s b bs s1 hstep]
      exact ih s1
    · rw [List.cons_append, scanList_cons_inr s b (bs ++ ys) p hstep,
        scanList_cons_inr s b bs p hstep]

theorem scanList_searching (xs : List Nat) : ∀ out pd : List Nat,
    (∀ q, q <+: xs → containsSeq markerCp (decodeIgnore (out ++ q)) = false) →
    scanList ⟨out, false, pd⟩ xs = (none, ⟨out ++ xs, false, pd⟩) := by
  induction xs with
  | nil => intro out pd _; simp [scanList]
  | cons b bs ih =>
    intro out pd h
    have hb : containsSeq markerCp (decodeIgnore (out ++ [b])) = false :=
      h [b] ⟨bs, rfl⟩
    have hstep : scanStep ⟨out, false, pd⟩ b = Sum.inl ⟨out ++ [b], false, pd⟩ := by
      rw [scanStep_not_found, hb]
    rw [scanList_cons_inl _ b bs _ hstep]
    have step := ih (out ++ [b]) pd (fun q hq => by
      have hq2 : b :: q <+: b :: bs := by
        rcases hq with ⟨r, hr⟩
        exact ⟨r, by rw [List.cons_append, hr]⟩
      have := h (b :: q) hq2
      simpa [List.append_assoc] using this)
    rw [step]
    simp

theorem scanList_capturing (ds : List Nat) : ∀ out pd : List Nat,
    (∀ b ∈ ds, isAsciiDigit b = true) →
    scanList ⟨out, true, pd⟩ ds = (none, ⟨out ++ ds, true, pd ++ ds⟩) := by
  induction ds with
  | nil => intro out pd _; simp [scanList]
  | cons b bs ih =>
    intro out pd h
    rw [scanList_cons_inl _ b bs _ (scanStep_found_digit out pd b (h b (by simp)))]
    rw [ih (out ++ [b]) (pd ++ [b]) (fun x hx => h x (by simp [hx]))]
    simp

theorem scanList_gap (gs : List Nat) : ∀ out pd : List Nat,
    (∀ g ∈ gs, isAsciiDigit g = false) → pd.length < 4 →
    scanList ⟨out, true, pd⟩ gs = (none, ⟨out ++ gs, true, pd⟩) := by
  induction gs with
  | nil => intro out pd _ _; simp [scanList]
  | cons g gs ih =>
    intro out pd h hlen
    rw [scanList_cons_inl _ g gs _ (scanStep_found_cont out pd g (h g (by simp)) hlen)]
    rw [ih (out ++ [g]) pd (fun x hx => h x (by simp [hx])) hlen]
    simp

theorem scanList_stop (out pd : List Nat) (t : Nat) (rest : List Nat)
    (ht : isAsciiDigit t = false) (hlen : 4 ≤ pd.length) :
    scanList ⟨out, true, pd⟩ (t :: rest) = (some pd, ⟨out, true, pd⟩) := by
  rw [scanList_cons_inr _ t rest pd (scanStep_found_stop out pd t ht hlen)]

theorem scanStep_inl_output (s : ScanState) (b : Nat) (s1 : ScanState)
    (h : scanStep s b = Sum.inl s1) : s1.output = s.output ++ [b] := by
  rcases s with ⟨out, found, pd⟩
  cases found
  · rw [scanStep_not_found] at h
    injection h with h
    rw [← h]
  · by_cases hb : isAsciiDigit b = true
    · rw [scanStep_found_digit out pd b hb] at h
      injection h with h
      rw [← h]
    · have hb2 : isAsciiDigit b = false := by simpa using hb
      by_cases hlen : 4 ≤ pd.length
      · rw [scanStep_found_stop out pd b hb2 hlen] at h
        exact absurd h (by simp)
      · rw [scanStep_found_cont out pd b hb2 (by omega)] at h
        injection h with h
        rw [← h]

theorem scanList_none_output (xs : List Nat) : ∀ s s1 : ScanState,
    scanList s xs = (none, s1) → s1.output = s.output ++ xs := by
  induction xs with
  | nil =>
    intro s s1 h
    simp [scanList] at h
    simp [h]
  | cons b bs ih =>
    intro s s1 h
    rcases hstep : scanStep s b with s2 | p
    · rw [scanList_cons_inl s b bs s2 hstep] at h
      rw [ih s2 s1 h, scanStep_inl_output s b s2 hstep]
      simp
    · rw [scanList_cons_inr s b bs p hstep] at h
      exact absurd h (by simp)

theorem markerCp_not_isPrefixOf_nil : markerCp.isPrefixOf ([] : List Nat) = false := rfl

theorem matchPort_none_of_not_isPrefixOf (d : List Nat)
    (h : markerCp.isPrefixOf d = false) : matchPort d = none := by
  simp [matchPort, h]

theorem regexFind_cons_some (c : Nat) (rest g : List Nat)
    (h : matchPort (c :: rest) = some g) : regexFind (c :: rest) = some g := by
  rw [regexFind, h]

theorem regexFind_cons_none (c : Nat) (rest : List Nat)
    (h : matchPort (c :: rest) = none) : regexFind (c :: rest) = regexFind rest := by
  rw [regexFind, h]

theorem regexFind_none (d : List Nat) (h : containsSeq markerCp d = false) :
    regexFind d = none := by
  induction d with
  | nil => rfl
  | cons c rest ih =>
    rw [containsSeq, Bool.or_eq_false_iff] at h
    rw [regexFind_cons_none c rest (matchPort_none_of_not_isPrefixOf (c :: rest) h.1)]
    exact ih h.2

theorem regexFind_at (d : List Nat) : ∀ (i : Nat) (g : List Nat),
    matchPort (d.drop i) = some g →
    (∀ j, j < i → matchPort (d.drop j) = none) →
    regexFind d = some g := by
  induction d with
  | nil =>
    intro i g hi _
    rw [List.drop_nil] at hi
    rw [matchPort_none_of_not_isPrefixOf [] markerCp_not_isPrefixOf_nil] at hi
    exact absurd hi (by simp)
  | cons c rest ih =>
    intro i g hi hbefore
    cases i with
    | zero =>
      rw [List.drop_zero] at hi
      exact regexFind_cons_some c rest g hi
    | succ k =>
      have h0 : matchPort (c :: rest) = none := by
        have := hbefore 0 (Nat.succ_pos k)
        simpa using this
      rw [regexFind_cons_none c rest h0]
      refine ih k g (by simpa using hi) (fun j hj => ?_)
      have := hbefore (j + 1) (by omega)
      simpa using this

theorem isAsciiDigit_imp_isUnicodeDigit (c : Nat) (h : isAsciiDigit c = true) :
    isUnicodeDigit c = true := by
  simp only [isAsciiDigit, decide_eq_true_eq] at h
  simp only [isUnicodeDigit, ndRanges, List.any_cons, List.any_nil, Bool.or_eq_true,
    decide_eq_true_eq]
  exact Or.inl h

theorem takeWhile_prefix_of_imp (p q : Nat → Bool)
    (hpq : ∀ x, p x = true → q x = true) :
    ∀ l : List Nat, l.takeWhile p <+: l.takeWhile q := by
  intro l
  induction l with
  | nil => exact List.nil_prefix
  | cons c rest ih =>
    by_cases hc : p c = true
    · rw [List.takeWhile_cons_of_pos hc, List.takeWhile_cons_of_pos (hpq c hc)]
      rcases ih with ⟨t, ht⟩
      exact ⟨t, by rw [List.cons_append, ht]⟩
    · rw [List.takeWhile_cons_of_neg (by simpa using hc)]
      exact List.nil_prefix

theorem take_eq_of_prefix_le (l1 l2 : List Nat) (n : Nat)
    (h : l1 <+: l2) (hn : n ≤ l1.length) : l2.take n = l1.take n := by
  rcases h with ⟨t, ht⟩
  rw [← ht, List.take_append_of_le_length hn]

theorem unicode_run_of_ascii_run (d : List Nat)
    (h : 6 ≤ (d.takeWhile isAsciiDigit).length) :
    (d.takeWhile isUnicodeDigit).take 5 = (d.takeWhile isAsciiDigit).take 5
    ∧ 4 ≤ (d.takeWhile isUnicodeDigit).length := by
  have hpre := takeWhile_prefix_of_imp isAsciiDigit isUnicodeDigit
    isAsciiDigit_imp_isUnicodeDigit d
  have hle := hpre.length_le
  exact ⟨take_eq_of_prefix_le _ _ 5 hpre (by omega), by omega⟩

theorem matchPort_some (d g : List Nat) (h : matchPort d = some g) :
    4 ≤ g.length ∧ ∀ c ∈ g, isUnicodeDigit c = true := by
  rw [matchPort] at h
  split at h
  · split at h
    · rename_i hlen
      injection h with h
      subst h
      constructor
      · rw [List.length_take]
        omega
      · intro c hc
        exact List.mem_takeWhile_imp (List.take_subset 5 _ hc)
    · exact absurd h (by simp)
  · exact absurd h (by simp)

theorem regexFind_some_digits (d : List Nat) : ∀ g : List Nat,
    regexFind d = some g → 4 ≤ g.length ∧ ∀ c ∈ g, isUnicodeDigit c = true := by
  induction d with
  | nil => intro g h; exact absurd h (by simp [regexFind])
  | cons c rest ih =>
    intro g h
    rcases hm : matchPort (c :: rest) with - | g0
    · rw [regexFind_cons_none c rest hm] at h
      exact ih g h
    · rw [regexFind_cons_some c rest g0 hm] at h
      injection h with h
      subst h
      exact matchPort_some (c :: rest) g0 hm

theorem scanStep_inr (s : ScanState) (b : Nat) (p : List Nat)
    (h : scanStep s b = Sum.inr p) : p = s.portDigits ∧ 4 ≤ p.length := by
  rcases s with ⟨out, found, pd⟩
  cases found
  · rw [scanStep_not_found] at h
    exact absurd h (by simp)
  · by_cases hb : isAsciiDigit b = true
    · rw [scanStep_found_digit out pd b hb] at h
      exact absurd h (by simp)
    · have hb2 : isAsciiDigit b = false := by simpa using hb
      by_cases hlen : 4 ≤ pd.length
      · rw [scanStep_found_stop out pd b hb2 hlen] at h
        injection h with h
        subst h
        exact ⟨rfl, hlen⟩
      · rw [scanStep_found_cont out pd b hb2 (by omega)] at h
        exact absurd h (by simp)

theorem scanStep_inl_portDigits (s : ScanState) (b : Nat) (s1 : ScanState)
    (h : scanStep s b = Sum.inl s1) :
    s1.portDigits = s.portDigits ∨
      (s1.portDigits = s.portDigits ++ [b] ∧ isAsciiDigit b = true) := by
  rcases s with ⟨out, found, pd⟩
  cases found
  · rw [scanStep_not_found] at h
    injection h with h
    left
    rw [← h]
  · by_cases hb : isAsciiDigit b = true
    · rw [scanStep_found_digit out pd b hb] at h
      injection h with h
      right
      rw [← h]
      exact ⟨rfl, hb⟩
    · have hb2 : isAsciiDigit b = false := by simpa using hb
      by_cases hlen : 4 ≤ pd.length
      · rw [scanStep_found_stop out pd b hb2 hlen] at h
        exact absurd h (by simp)
      · rw [scanStep_found_cont out pd b hb2 (by omega)] at h
        injection h with h
        left
        rw [← h]

theorem scanList_some_digits (xs : List Nat) : ∀ (s : ScanState) (p : List Nat) (s1 : ScanState),
    (∀ c ∈ s.portDigits, isAsciiDigit c = true) →
    scanList s xs = (some p, s1) →
    4 ≤ p.length ∧ ∀ c ∈ p, isAsciiDigit c = true := by
  induction xs with
  | nil =>
    intro s p s1 _ h
    exact absurd h (by simp [scanList])
  | cons b bs ih =>
    intro s p s1 hinv h
    rcases hstep : scanStep s b with s2 | p0
    · rw [scanList_cons_inl s b bs s2 hstep] at h
      refine ih s2 p s1 ?_ h
      rcases scanStep_inl_portDigits s b s2 hstep with h2 | ⟨h2, hb⟩
      · rw [h2]; exact hinv
      · rw [h2]
        intro c hc
        rcases List.mem_append.mp hc with hc | hc
        · exact hinv c hc
        · rw [List.mem_singleton.mp hc]
          exact hb
    · rw [scanList_cons_inr s b bs p0 hstep] at h
      injection h with h1 h2
      injection h1 with h1
      subst h1
      rcases scanStep_inr s b p0 hstep with ⟨hp, hlen⟩
      subst hp
      exact ⟨hlen, hinv⟩

theorem scanEvents_eq (es : List ReadEvent) : ∀ s : ScanState,
    scanEvents s es = scanList s (eventBytes es) := by
  induction es with
  | nil => intro s; rfl
  | cons e es ih =>
    intro s
    cases e with
    | chunk b =>
      rcases hstep : scanStep s b with s1 | p
      · rw [scanEvents_cons_chunk_inl s b es s1 hstep, eventBytes,
          scanList_cons_inl s b (eventBytes es) s1 hstep]
        exact ih s1
      · rw [scanEvents_cons_chunk_inr s b es p hstep, eventBytes,
          scanList_cons_inr s b (eventBytes es) p hstep]
    | emptyRead => rw [scanEvents, eventBytes]; exact ih s
    | readErr => rw [scanEvents, eventBytes]; exact ih s

theorem scanList_append_none (xs ys : List Nat) (s s1 : ScanState)
    (h : scanList s xs = (none, s1)) : scanList s (xs ++ ys) = scanList s1 ys := by
  rw [scanList_append, h]

theorem scanList_append_some (xs ys : List Nat) (s s1 : ScanState) (p : List Nat)
    (h : scanList s xs = (some p, s1)) : scanList s (xs ++ ys) = (some p, s1) := by
  rw [scanList_append, h]

theorem captureBytes_fast (stream p : List Nat) (s1 : ScanState)
    (h : scanList initState stream = (some p, s1)) :
    captureBytes stream = some (fastUrl p) := by
  unfold captureBytes
  rw [h]

theorem captureBytes_fallback (stream : List Nat) (s1 : ScanState) (g : List Nat)
    (hscan : scanList initState stream = (none, s1))
    (hfind : regexFind (decodeIgnore s1.output) = some g) :
    captureBytes stream = some (fallbackUrl g) := by
  unfold captureBytes
  rw [hscan]
  show (match regexFind (decodeIgnore s1.output) with
    | some g0 => some (fallbackUrl g0)
    | none => none) = some (fallbackUrl g)
  rw [hfind]

theorem captureBytes_none (stream : List Nat) (s1 : ScanState)
    (hscan : scanList initState stream = (none, s1))
    (hfind : regexFind (decodeIgnore s1.output) = none) :
    captureBytes stream = none := by
  unfold captureBytes
  rw [hscan]
  show (match regexFind (decodeIgnore s1.output) with
    | some g0 => some (fallbackUrl g0)
    | none => none) = none
  rw [hfind]

theorem scanList_to_marker (pre : List Nat)
    (h1 : ∀ q ∈ (pre ++ markerHead).inits, containsSeq markerCp (decodeIgnore q) = false)
    (h2 : containsSeq markerCp (decodeIgnore ((pre ++ markerHead) ++ [58])) = true) :
    scanList initState ((pre ++ markerHead) ++ ([58] ++ [])) =
      (none, ⟨(pre ++ markerHead) ++ [58], true, []⟩) ∧
    ∀ tail : List Nat,
      scanList initState ((pre ++ markerHead) ++ ([58] ++ tail)) =
        scanList ⟨(pre ++ markerHead) ++ [58], true, []⟩ tail := by
  have hA : scanList initState (pre ++ markerHead) =
      (none, ⟨pre ++ markerHead, false, []⟩) := by
    have hs := scanList_searching (pre ++ markerHead) [] []
      (fun q hq => by simpa using h1 q ((List.mem_inits q (pre ++ markerHead)).mpr hq))
    simpa [initState] using hs
  have hcolon : scanStep ⟨pre ++ markerHead, false, []⟩ 58
      = Sum.inl ⟨(pre ++ markerHead) ++ [58], true, []⟩ := by
    rw [scanStep_not_found, h2]
  have htail : ∀ tail : List Nat,
      scanList initState ((pre ++ markerHead) ++ ([58] ++ tail)) =
        scanList ⟨(pre ++ markerHead) ++ [58], true, []⟩ tail := by
    intro tail
    rw [scanList_append_none _ _ _ _ hA, List.singleton_append,
      scanList_cons_inl _ 58 tail _ hcolon]
  exact ⟨by rw [htail []]; rfl, htail⟩

theorem scanList_run_stop (out run : List Nat) (t : Nat) (rest : List Nat)
    (h3 : ∀ b ∈ run, isAsciiDigit b = true) (h4 : 4 ≤ run.length)
    (h5 : isAsciiDigit t = false) :
    scanList ⟨out, true, []⟩ (run ++ t :: rest)
      = (some run, ⟨out ++ run, true, run⟩) := by
  rw [scanList_append_none _ _ _ _ (scanList_capturing run out [] h3)]
  simp only [List.nil_append]
  exact scanList_stop (out ++ run) run t rest h5 h4

theorem scanList_two_runs_stop (out run1 gap run2 : List Nat) (t : Nat) (rest : List Nat)
    (hr1 : ∀ x ∈ run1, isAsciiDigit x = true) (hr1len : run1.length < 4)
    (hgap : ∀ g ∈ gap, isAsciiDigit g = false)
    (hr2 : ∀ x ∈ run2, isAsciiDigit x = true)
    (hlen : 4 ≤ run1.length + run2.length)
    (ht : isAsciiDigit t = false) :
    scanList ⟨out, true, []⟩ (run1 ++ (gap ++ (run2 ++ t :: rest)))
      = (some (run1 ++ run2), ⟨((out ++ run1) ++ gap) ++ run2, true, run1 ++ run2⟩) := by
  rw [scanList_append_none _ _ _ _ (scanList_capturing run1 out [] hr1)]
  simp only [List.nil_append]
  rw [scanList_append_none _ _ _ _ (scanList_gap gap (out ++ run1) run1 hgap hr1len)]
  rw [scanList_append_none _ _ _ _ (scanList_capturing run2 ((out ++ run1) ++ gap) run1 hr2)]
  have hlen2 : 4 ≤ (run1 ++ run2).length := by
    rw [List.length_append]
    omega
  exact scanList_stop _ (run1 ++ run2) t rest ht hlen2

theorem captureBytes_first_marker_run (pre run rest : List Nat) (t : Nat)
    (h1 : ∀ q ∈ (pre ++ markerHead).inits, containsSeq markerCp (decodeIgnore q) = false)
    (h2 : containsSeq markerCp (decodeIgnore ((pre ++ markerHead) ++ [58])) = true)
    (h3 : ∀ b ∈ run, isAsciiDigit b = true)
    (h4 : 4 ≤ run.length)
    (h5 : isAsciiDigit t = false) :
    captureBytes (pre ++ markerCp ++ run ++ t :: rest) = some (fastUrl run) := by
  have hdecomp : pre ++ markerCp ++ run ++ t :: rest
      = (pre ++ markerHead) ++ ([58] ++ (run ++ t :: rest)) := by
    rw [markerCp_eq]
    simp [List.append_assoc]
  have hscan : scanList initState (pre ++ markerCp ++ run ++ t :: rest)
      = (some run, ⟨((pre ++ markerHead) ++ [58]) ++ run, true, run⟩) := by
    rw [hdecomp, (scanList_to_marker pre h1 h2).2 (run ++ t :: rest)]
    exact scanList_run_stop ((pre ++ markerHead) ++ [58]) run t rest h3 h4 h5
  exact captureBytes_fast _ run _ hscan

theorem captureBytes_fallback_at (stream g : List Nat) (i : Nat)
    (hfast : (scanList initState stream).1 = none)
    (hmatch : matchPort ((decodeIgnore stream).drop i) = some g)
    (hbefore : ∀ j, j < i → matchPort ((decodeIgnore stream).drop j) = none) :
    captureBytes stream = some (fallbackUrl g) := by
  rcases hscan : scanList initState stream with ⟨o, s1⟩
  have ho : o = none := by
    rw [hscan] at hfast
    exact hfast
  subst ho
  have hout : s1.output = stream := by
    have h := scanList_none_output stream initState s1 hscan
    simpa [initState] using h
  refine captureBytes_fallback stream s1 g hscan ?_
  rw [hout]
  exact regexFind_at (decodeIgnore stream) i g hmatch hbefore

/-! Theorems settling the claims. -/

/-- Byte stream used to refute claim C1 as stated: it decodes to
bore.pub:1 bore.pub:23456 followed by a space. -/
def cexStream : List Nat :=
  [98, 111, 114, 101, 46, 112, 117, 98, 58, 49, 32,
   98, 111, 114, 101, 46, 112, 117, 98, 58, 50, 51, 52, 53, 54, 32]

/-- C1 counterexample: cexStream contains the marker bore.pub: (its second
occurrence) followed by the digit run 23456 (length 5 at least 4) and then
a space, yet the scanner does not return the URL built from exactly that
run: digits captured after the first marker occurrence are never reset, so
the returned port is the concatenation 123456. -/
theorem fastPath_concatenates_earlier_digits :
    cexStream = [98, 111, 114, 101, 46, 112, 117, 98, 58, 49, 32] ++ markerCp
        ++ [50, 51, 52, 53, 54] ++ 32 :: []
    ∧ List.all [50, 51, 52, 53, 54] isAsciiDigit = true
    ∧ 4 ≤ ([50, 51, 52, 53, 54] : List Nat).length
    ∧ isAsciiDigit 32 = false
    ∧ captureBytes cexStream = some (fastUrl [49, 50, 51, 52, 53, 54])
    ∧ decide (fastUrl [49, 50, 51, 52, 53, 54] = fastUrl [50, 51, 52, 53, 54]) = false := by
  decide

/-- C1 amended: for every byte stream whose permissively decoded form
contains the marker bore.pub: for the first time exactly at the end of the
segment pre ++ marker, with the marker immediately followed by a run of at
least 4 ASCII digit bytes and then a non-digit byte, the scanner returns
http://bore.pub:run/opds/all with the port exactly that run. -/
theorem fastPath_first_marker_returns_exact_run
    (pre run rest : List Nat) (t : Nat)
    (h1 : ∀ q ∈ (pre ++ markerHead).inits, containsSeq markerCp (decodeIgnore q) = false)
    (h2 : containsSeq markerCp (decodeIgnore ((pre ++ markerHead) ++ [58])) = true)
    (h3 : ∀ b ∈ run, isAsciiDigit b = true)
    (h4 : 4 ≤ run.length)
    (h5 : isAsciiDigit t = false) :
    captureBytes (pre ++ markerCp ++ run ++ t :: rest) = some (fastUrl run) :=
  captureBytes_first_marker_run pre run rest t h1 h2 h3 h4 h5

/-- Witness for the amended C1 theorem at a concrete input. -/
theorem fastPath_first_marker_returns_exact_run_witness :
    captureBytes ([] ++ markerCp ++ [49, 50, 51, 52] ++ 32 :: [])
      = some (fastUrl [49, 50, 51, 52]) :=
  fastPath_first_marker_returns_exact_run [] [49, 50, 51, 52] [] 32
    (by decide) (by decide) (by decide) (by decide) (by decide)

/-- C2: when the marker is followed by fewer than 4 digits and then a
non-digit, the capturing branch does not return and does not reset the
digits (first conjunct, at the level of a single loop step); the retained
digits are concatenated with any later digit run, and once the combined
length reaches 4 the fast path returns the concatenated port (second
conjunct). -/
theorem shortRun_no_return_digits_retained
    (pre run1 gap run2 rest out pd : List Nat) (t b : Nat)
    (h1 : ∀ q ∈ (pre ++ markerHead).inits, containsSeq markerCp (decodeIgnore q) = false)
    (h2 : containsSeq markerCp (decodeIgnore ((pre ++ markerHead) ++ [58])) = true)
    (hr1 : ∀ x ∈ run1, isAsciiDigit x = true)
    (hr1len : run1.length < 4)
    (hgap : ∀ g ∈ gap, isAsciiDigit g = false)
    (hr2 : ∀ x ∈ run2, isAsciiDigit x = true)
    (hlen : 4 ≤ run1.length + run2.length)
    (ht : isAsciiDigit t = false)
    (hpd : pd.length < 4)
    (hb : isAsciiDigit b = false) :
    scanStep ⟨out, true, pd⟩ b = Sum.inl ⟨out ++ [b], true, pd⟩
    ∧ captureBytes (pre ++ markerCp ++ run1 ++ gap ++ run2 ++ t :: rest)
        = some (fastUrl (run1 ++ run2)) := by
  refine ⟨scanStep_found_cont out pd b hb hpd, ?_⟩
  have hdecomp : pre ++ markerCp ++ run1 ++ gap ++ run2 ++ t :: rest
      = (pre ++ markerHead) ++ ([58] ++ (run1 ++ (gap ++ (run2 ++ t :: rest)))) := by
    rw [markerCp_eq]
    simp [List.append_assoc]
  have hscan : scanList initState (pre ++ markerCp ++ run1 ++ gap ++ run2 ++ t :: rest)
      = (some (run1 ++ run2), ⟨((((pre ++ markerHead) ++ [58]) ++ run1) ++ gap) ++ run2,
          true, run1 ++ run2⟩) := by
    rw [hdecomp, (scanList_to_marker pre h1 h2).2 (run1 ++ (gap ++ (run2 ++ t :: rest)))]
    exact scanList_two_runs_stop ((pre ++ markerHead) ++ [58]) run1 gap run2 t rest
      hr1 hr1len hgap hr2 hlen ht
  exact captureBytes_fast _ (run1 ++ run2) _ hscan

/-- Witness for the C2 theorem at a concrete input: the stream decodes to
bore.pub:12 34 and the fast path returns port 1234, the concatenation of
the two short runs. -/
theorem shortRun_no_return_digits_retained_witness :
    scanStep ⟨[], true, [49]⟩ 120 = Sum.inl ⟨[] ++ [120], true, [49]⟩
    ∧ captureBytes ([] ++ markerCp ++ [49, 50] ++ [32] ++ [51, 52] ++ 32 :: [])
        = some (fastUrl ([49, 50] ++ [51, 52])) :=
  shortRun_no_return_digits_retained [] [49, 50] [32] [51, 52] [] [] [49] 32 120
    (by decide) (by decide) (by decide) (by decide) (by decide) (by decide)
    (by decide) (by decide) (by decide) (by decide)

/-- C4: for a byte stream none of whose prefixes decodes to text containing
the marker bore.pub:, the scanner returns no URL: the fast path never
leaves the searching state and the fallback regex cannot match the decoded
buffer.  The 15 second wall-clock budget itself is abstracted: the stream
models exactly the bytes read before the budget elapsed, and the scan is
structurally a finite fold over them. -/
theorem no_marker_returns_none (stream : List Nat)
    (h : ∀ q ∈ stream.inits, containsSeq markerCp (decodeIgnore q) = false) :
    captureBytes stream = none := by
  have hscan : scanList initState stream = (none, ⟨stream, false, []⟩) := by
    have hs := scanList_searching stream [] []
      (fun q hq => by simpa using h q ((List.mem_inits q stream).mpr hq))
    simpa [initState] using hs
  refine captureBytes_none stream ⟨stream, false, []⟩ hscan ?_
  exact regexFind_none _
    (h stream ((List.mem_inits stream stream).mpr ⟨[], List.append_nil stream⟩))

/-- Witness for the C4 theorem at a concrete input (the bytes of hello). -/
theorem no_marker_returns_none_witness :
    captureBytes [104, 101, 108, 108, 111] = none :=
  no_marker_returns_none [104, 101, 108, 108, 111] (by decide)

/-- C3: when the byte-by-byte fast path did not return and the decoded
buffer has a leftmost position i at which the fallback pattern (the marker
followed by 4 to 5 digits) matches with digit group g, capture returns
http://bore.pub:g/ with the trailing path a bare slash, unlike the fast
path suffix /opds/all. -/
theorem fallback_returns_leftmost_match_with_slash
    (stream g : List Nat) (i : Nat)
    (hfast : (scanList initState stream).1 = none)
    (hmatch : matchPort ((decodeIgnore stream).drop i) = some g)
    (hbefore : ∀ j ∈ List.range i, matchPort ((decodeIgnore stream).drop j) = none) :
    captureBytes stream = some (fallbackUrl g) :=
  captureBytes_fallback_at stream g i hfast hmatch
    (fun j hj => hbefore j (List.mem_range.mpr hj))

/-- Witness for the C3 theorem: the stream decodes to xy bore.pub:54321
with no trailing non-digit, so the fast path never returns, and the
fallback yields http://bore.pub:54321/ from the match at position 3. -/
theorem fallback_returns_leftmost_match_with_slash_witness :
    captureBytes [120, 121, 32, 98, 111, 114, 101, 46, 112, 117, 98, 58, 53, 52, 51, 50, 49]
      = some (fallbackUrl [53, 52, 51, 50, 49]) :=
  fallback_returns_leftmost_match_with_slash
    [120, 121, 32, 98, 111, 114, 101, 46, 112, 117, 98, 58, 53, 52, 51, 50, 49]
    [53, 52, 51, 50, 49] 3 (by decide) (by decide) (by decide)

/-- C9: if the first marker occurrence in the decoded buffer sits at
position i and is followed by a digit run of length at least 6, then, when
the fast path did not return, the fallback URL carries exactly the first 5
of those digits (the regex group is capped at 5), while the fast path on a
stream whose first marker is followed by such a long run and a non-digit
terminator returns the whole run, with no upper bound on its length. -/
theorem fallback_truncates_to_five_fast_path_unbounded
    (stream : List Nat) (i : Nat) (pre run rest : List Nat) (t : Nat)
    (hfast : (scanList initState stream).1 = none)
    (hpfx : markerCp.isPrefixOf ((decodeIgnore stream).drop i) = true)
    (hfirst : ∀ j ∈ List.range i, markerCp.isPrefixOf ((decodeIgnore stream).drop j) = false)
    (hrunlen : 6 ≤ (((decodeIgnore stream).drop (i + 9)).takeWhile isAsciiDigit).length)
    (h1 : ∀ q ∈ (pre ++ markerHead).inits, containsSeq markerCp (decodeIgnore q) = false)
    (h2 : containsSeq markerCp (decodeIgnore ((pre ++ markerHead) ++ [58])) = true)
    (h3 : ∀ b ∈ run, isAsciiDigit b = true)
    (h4 : 6 ≤ run.length)
    (h5 : isAsciiDigit t = false) :
    captureBytes stream
      = some (fallbackUrl ((((decodeIgnore stream).drop (i + 9)).takeWhile isAsciiDigit).take 5))
    ∧ ((((decodeIgnore stream).drop (i + 9)).takeWhile isAsciiDigit).take 5).length = 5
    ∧ captureBytes (pre ++ markerCp ++ run ++ t :: rest) = some (fastUrl run) := by
  have hdrop9 : ((decodeIgnore stream).drop i).drop 9 = (decodeIgnore stream).drop (i + 9) := by
    rw [List.drop_drop]
  obtain ⟨heq, hlen4⟩ := unicode_run_of_ascii_run ((decodeIgnore stream).drop (i + 9)) hrunlen
  refine ⟨?_, ?_, ?_⟩
  · refine captureBytes_fallback_at stream _ i hfast ?_
      (fun j hj => matchPort_none_of_not_isPrefixOf _ (hfirst j (List.mem_range.mpr hj)))
    rw [matchPort, hpfx, if_pos rfl, hdrop9, if_pos hlen4, heq]
  · rw [List.length_take]
    omega
  · exact captureBytes_first_marker_run pre run rest t h1 h2 h3 (by omega) h5

/-- Witness for the C9 theorem: the stream decodes to bore.pub:1234567
with no terminator, so the fast path never fires and the fallback keeps
only 12345; the second stream adds a space terminator and the fast path
returns the full 7-digit run. -/
theorem fallback_truncates_to_five_fast_path_unbounded_witness :
    captureBytes [98, 111, 114, 101, 46, 112, 117, 98, 58, 49, 50, 51, 52, 53, 54, 55]
      = some (fallbackUrl
          ((((decodeIgnore
                [98, 111, 114, 101, 46, 112, 117, 98, 58, 49, 50, 51, 52, 53, 54, 55]).drop
              (0 + 9)).takeWhile isAsciiDigit).take 5))
    ∧ ((((decodeIgnore
            [98, 111, 114, 101, 46, 112, 117, 98, 58, 49, 50, 51, 52, 53, 54, 55]).drop
          (0 + 9)).takeWhile isAsciiDigit).take 5).length = 5
    ∧ captureBytes ([] ++ markerCp ++ [49, 50, 51, 52, 53, 54, 55] ++ 32 :: [])
        = some (fastUrl [49, 50, 51, 52, 53, 54, 55]) :=
  fallback_truncates_to_five_fast_path_unbounded
    [98, 111, 114, 101, 46, 112, 117, 98, 58, 49, 50, 51, 52, 53, 54, 55] 0
    [] [49, 50, 51, 52, 53, 54, 55] [] 32
    (by decide) (by decide) (by decide) (by decide) (by decide) (by decide)
    (by decide) (by decide) (by decide)

/-- C10: every URL the capture function returns, by either path, is built
from a port that is a list of at least 4 decimal digit code points (the
Unicode decimal digit class Nd matched by the fallback regex; fast-path
ports are moreover plain ASCII digits), with suffix /opds/all (fast path)
or / (fallback); no empty, shorter or non-digit port is ever produced. -/
theorem returned_urls_have_valid_port (stream : List Nat) (url : String)
    (h : captureBytes stream = some url) :
    ∃ p : List Nat, 4 ≤ p.length ∧ (∀ c ∈ p, isUnicodeDigit c = true) ∧
      (url = fastUrl p ∨ url = fallbackUrl p) := by
  rcases hscan : scanList initState stream with ⟨o, s1⟩
  rcases o with - | p
  · rcases hfind : regexFind (decodeIgnore s1.output) with - | g
    · rw [captureBytes_none stream s1 hscan hfind] at h
      exact absurd h (by simp)
    · rw [captureBytes_fallback stream s1 g hscan hfind] at h
      injection h with h
      rcases regexFind_some_digits (decodeIgnore s1.output) g hfind with ⟨hlen, hdig⟩
      exact ⟨g, hlen, hdig, Or.inr h.symm⟩
  · rw [captureBytes_fast stream p s1 hscan] at h
    injection h with h
    rcases scanList_some_digits stream initState p s1 (by intro c hc; simp [initState] at hc)
      hscan with ⟨hlen, hdig⟩
    exact ⟨p, hlen, fun c hc => isAsciiDigit_imp_isUnicodeDigit c (hdig c hc), Or.inl h.symm⟩

/-- Witness for the C10 theorem at a concrete input. -/
theorem returned_urls_have_valid_port_witness :
    ∃ p : List Nat, 4 ≤ p.length ∧ (∀ c ∈ p, isUnicodeDigit c = true) ∧
      (fastUrl [57, 56, 55, 54] = fastUrl p ∨ fastUrl [57, 56, 55, 54] = fallbackUrl p) :=
  returned_urls_have_valid_port
    [98, 111, 114, 101, 46, 112, 117, 98, 58, 57, 56, 55, 54, 32]
    (fastUrl [57, 56, 55, 54]) (by decide)

/-- C5: send_email returns true exactly when every SMTP step succeeds; on
any step failure it returns false after printing the diagnostic, without
raising; and in the orchestration a failing send does not get in the way of
the URL having been printed first, after which the program proceeds to the
wait on the child. -/
theorem email_failure_nonfatal (stream : List Nat) (url : String)
    (o o2 : SmtpOutcome) (intr : Bool)
    (hcap : captureBytes stream = some url)
    (hfail : sendEmailOk o = false)
    (hok : sendEmailOk o2 = true) :
    (send_email o).1 = false
    ∧ (send_email o).2 = [MainAction.emailFailedMsg]
    ∧ (send_email o2).1 = true
    ∧ (mainRun stream o intr).head? = some (MainAction.printUrl url)
    ∧ MainAction.waitChild ∈ mainRun stream o intr := by
  refine ⟨by simp [send_email, hfail], by simp [send_email, hfail],
    by simp [send_email, hok], ?_, ?_⟩
  · unfold mainRun
    rw [hcap]
    rfl
  · unfold mainRun
    rw [hcap]
    simp

/-- Witness for the C5 theorem at a concrete input. -/
theorem email_failure_nonfatal_witness :
    (send_email ⟨true, true, false, true⟩).1 = false
    ∧ (send_email ⟨true, true, false, true⟩).2 = [MainAction.emailFailedMsg]
    ∧ (send_email ⟨true, true, true, true⟩).1 = true
    ∧ (mainRun [98, 111, 114, 101, 46, 112, 117, 98, 58, 57, 56, 55, 54, 32]
        ⟨true, true, false, true⟩ false).head?
        = some (MainAction.printUrl (fastUrl [57, 56, 55, 54]))
    ∧ MainAction.waitChild ∈ mainRun [98, 111, 114, 101, 46, 112, 117, 98, 58, 57, 56, 55, 54, 32]
        ⟨true, true, false, true⟩ false :=
  email_failure_nonfatal [98, 111, 114, 101, 46, 112, 117, 98, 58, 57, 56, 55, 54, 32]
    (fastUrl [57, 56, 55, 54]) ⟨true, true, false, true⟩ ⟨true, true, true, true⟩ false
    (by decide) (by decide) (by decide)

/-- C6: the scan loop never propagates an error: processing a read event
list equals processing only its delivered bytes, so read errors (and empty
reads) are swallowed as state-preserving retries, and the whole capture
result over events coincides with the pure byte-stream capture. -/
theorem read_errors_swallowed :
    (∀ es : List ReadEvent, captureFromEvents es = captureBytes (eventBytes es))
    ∧ (∀ (s : ScanState) (es : List ReadEvent),
        scanEvents s (ReadEvent.readErr :: es) = scanEvents s es
        ∧ scanEvents s (ReadEvent.emptyRead :: es) = scanEvents s es) := by
  constructor
  · intro es
    unfold captureFromEvents captureBytes
    rw [scanEvents_eq]
  · intro s es
    exact ⟨rfl, rfl⟩

/-- C7: when a URL was captured and an interrupt arrives during the wait on
the child, the main block sends exactly one termination request to the
child and ends by printing Stopped and exiting. -/
theorem interrupt_terminates_child_once (stream : List Nat) (url : String) (o : SmtpOutcome)
    (hcap : captureBytes stream = some url) :
    countTerminate (mainRun stream o true) = 1
    ∧ (mainRun stream o true).getLast? = some MainAction.printStopped := by
  unfold mainRun
  rw [hcap]
  cases hsend : sendEmailOk o <;>
    simp only [send_email, hsend, if_true, if_false, Bool.false_eq_true] <;>
    exact ⟨rfl, rfl⟩

/-- Witness for the C7 theorem at a concrete input. -/
theorem interrupt_terminates_child_once_witness :
    countTerminate (mainRun [98, 111, 114, 101, 46, 112, 117, 98, 58, 57, 56, 55, 54, 32]
        ⟨false, false, false, false⟩ true) = 1
    ∧ (mainRun [98, 111, 114, 101, 46, 112, 117, 98, 58, 57, 56, 55, 54, 32]
        ⟨false, false, false, false⟩ true).getLast? = some MainAction.printStopped :=
  interrupt_terminates_child_once [98, 111, 114, 101, 46, 112, 117, 98, 58, 57, 56, 55, 54, 32]
    (fastUrl [57, 56, 55, 54]) ⟨false, false, false, false⟩ (by decide)

/-- C8: capture_bore_url returns the same child handle it was given by the
spawn in every outcome, and the process operations it performs are one
spawn followed by reads only: it never terminates or waits on the child
itself. -/
theorem capture_preserves_child_handle :
    (∀ (α : Type) (proc : α) (stream : List Nat),
      (captureWithProcess proc stream).2 = proc)
    ∧ (∀ es : List ReadEvent,
        hasTerminateOp (captureProcOps es) = false
        ∧ hasWaitOp (captureProcOps es) = false) := by
  constructor
  · intro α proc stream
    rfl
  · intro es
    have hmap : ∀ l : List ReadEvent,
        hasTerminateOp (l.map fun _ => ProcOp.readOp) = false
        ∧ hasWaitOp (l.map fun _ => ProcOp.readOp) = false := by
      intro l
      induction l with
      | nil => exact ⟨rfl, rfl⟩
      | cons e l ih =>
        simpa [hasTerminateOp, hasWaitOp] using ih
    have h := hmap es
    exact ⟨by simpa [captureProcOps, hasTerminateOp] using h.1,
      by simpa [captureProcOps, hasWaitOp] using h.2⟩

end CaptureBore
